import Mathlib

/-
Verification development for the periodic-task scheduler implemented in
src/src/main/cpp/threadutility.cpp (class ThreadUtility and its priv_data).

Modelling choices (shallow embedding):
* LogString (std::basic_string) is modelled as a list of characters.
* Time points and periods (std::chrono) are modelled as natural numbers;
  the only operations the code performs on them are + and order comparisons.
* A job's callable `std::function<void()> f` is opaque; the outcome of the
  i-th executed-job slot of a scheduler pass is supplied by an oracle
  `Nat -> Outcome`: either a clean return (carrying the time at which
  `system_clock::now()` is read right after `f()` returns), or a raised
  `std::exception`, or a raised non-standard fault (the `catch (...)` case).
* `LogLog::warn` calls are modelled as emitted `Warn` values.
* The worker thread and mutexes: the scheduler loop body is modelled as a
  pure function on the job store (the C++ loop body runs under the store
  lock, so caller mutations are serialized against it); `std::thread`
  joinability and the `terminated` flag are explicit booleans in
  `SchedState`.  `interrupt.notify_*` calls have no effect on the modelled
  state and are dropped.
-/

namespace ThreadUtility

/-- Character-list model of LogString. -/
abbrev LogString := List Char

/-- Model of priv_data::NamedPeriodicFunction: one registered periodic job.
The callable field `f` is not stored; execution outcomes come from an
oracle (see Outcome). -/
structure Job where
  name : LogString
  delay : Nat
  nextRun : Nat
  errorCount : Nat
  removed : Bool
deriving DecidableEq

/-- Result of invoking a job's action `f()`: clean return (with the value of
system_clock::now() sampled just after the call), a thrown std::exception,
or any other thrown object. -/
inductive Outcome where
  | success (finishTime : Nat)
  | failStd
  | failOther
deriving DecidableEq

/-- A LogLog::warn report emitted by the scheduler loop: either
warn(item.name, ex) from the std::exception handler, or
warn(item.name + " threw an exception") from the catch-all handler. -/
inductive Warn where
  | ex (name : LogString)
  | other (name : LogString)
deriving DecidableEq

/-- Result of processing one job inside the range-for of doPeriodicTasks:
the (possibly updated) job, the updated tentative wake deadline
(nextOperationTime), the warn reports emitted, and whether the due branch
(which invokes the action) was entered. -/
structure StepResult where
  job : Job
  deadline : Nat
  warns : List Warn
  ran : Bool
deriving DecidableEq

/-- One iteration of the `for (auto& item : this->jobs)` body of
doPeriodicTasks (threadutility.cpp lines 353-382), for a fixed value of
`currentTime` and with the action's outcome `o` supplied by the oracle.
Removed jobs are skipped; a due job (`nextRun <= currentTime`) is executed:
on clean return nextRun becomes finishTime + delay and is folded into the
deadline and errorCount is reset, on a fault a warn is emitted and
errorCount is incremented (the try block is exited before the nextRun
update, so nextRun and the deadline are untouched); a live job that is not
due folds its nextRun into the deadline. -/
def stepJob (currentTime : Nat) (o : Outcome) (j : Job) (deadline : Nat) : StepResult :=
  if j.removed then
    ⟨j, deadline, [], false⟩
  else if j.nextRun ≤ currentTime then
    match o with
    | Outcome.success t =>
      ⟨{ j with nextRun := t + j.delay, errorCount := 0 },
        if t + j.delay < deadline then t + j.delay else deadline, [], true⟩
    | Outcome.failStd =>
      ⟨{ j with errorCount := j.errorCount + 1 }, deadline, [Warn.ex j.name], true⟩
    | Outcome.failOther =>
      ⟨{ j with errorCount := j.errorCount + 1 }, deadline, [Warn.other j.name], true⟩
  else
    ⟨j, if j.nextRun < deadline then j.nextRun else deadline, [], false⟩

/-- The whole execution pass of one doPeriodicTasks iteration: the range-for
over the job store, threading the tentative deadline through the steps and
collecting warn reports.  `os i` is the outcome of the action of the job at
position i.  Models lines 352-383 with `terminated` remaining false for the
duration of the pass. -/
def runPass (currentTime : Nat) (os : Nat → Outcome) (jobs : List Job) (deadline : Nat) :
    List Job × Nat × List Warn :=
  match jobs with
  | [] => ([], deadline, [])
  | j :: rest =>
    ((stepJob currentTime (os 0) j deadline).job ::
        (runPass currentTime (fun i => os (i + 1)) rest
          (stepJob currentTime (os 0) j deadline).deadline).1,
      (runPass currentTime (fun i => os (i + 1)) rest
        (stepJob currentTime (os 0) j deadline).deadline).2.1,
      (stepJob currentTime (os 0) j deadline).warns ++
        (runPass currentTime (fun i => os (i + 1)) rest
          (stepJob currentTime (os 0) j deadline).deadline).2.2)

/-- The erasure condition of the purge pass (threadutility.cpp line 390):
`item.removed || this->retryCount < item.errorCount`. -/
def purgePred (retryCount : Nat) (j : Job) : Bool :=
  j.removed || decide (retryCount < j.errorCount)

/-- `std::find_if` + `erase` of the first element satisfying `p`; `none`
when no element matches (find_if returned `end()`). -/
def eraseFirstP (p : Job → Bool) : List Job → Option (List Job)
  | [] => none
  | j :: rest =>
    if p j then some rest
    else (eraseFirstP p rest).map (fun rest' => j :: rest')

/-- The `while (1)` purge loop of doPeriodicTasks (lines 385-397):
repeatedly erase the first job that is removed or over the retry limit,
until find_if fails.  Each successful erase shortens the list by one, so
`jobs.length` steps of fuel always suffice (see purgeLoop_eq_filter). -/
def purgeLoop (retryCount : Nat) : Nat → List Job → List Job
  | 0, jobs => jobs
  | fuel + 1, jobs =>
    match eraseFirstP (purgePred retryCount) jobs with
    | none => jobs
    | some jobs' => purgeLoop retryCount fuel jobs'

/-- The purge pass with its sufficient fuel.  (The early `return` the C++
loop takes when the store becomes empty leaves the same store contents,
namely the empty list; it only skips the subsequent wait.) -/
def purge (retryCount : Nat) (jobs : List Job) : List Job :=
  purgeLoop retryCount jobs.length jobs

/-- One full iteration of the `while (!this->terminated)` body of
doPeriodicTasks: the execution pass seeded with
`nextOperationTime = currentTime + maxDelay` (line 350), followed by the
purge pass.  Returns the job store after the iteration, the wake deadline
passed to `interrupt.wait_until`, and the warn reports emitted. -/
def loopIter (retryCount maxDelay currentTime : Nat) (os : Nat → Outcome)
    (jobs : List Job) : List Job × Nat × List Warn :=
  ((purge retryCount (runPass currentTime os jobs (currentTime + maxDelay)).1),
    (runPass currentTime os jobs (currentTime + maxDelay)).2.1,
    (runPass currentTime os jobs (currentTime + maxDelay)).2.2)

/-- ThreadUtility::hasPeriodicTask (lines 285-293): find_if over the store
for a non-removed job with exactly the given name, true iff found. -/
def hasPeriodicTask (jobs : List Job) (name : LogString) : Bool :=
  jobs.any (fun item => !item.removed && decide (name = item.name))

/-- The match condition of removePeriodicTasksMatching (line 335):
`namePrefix.size() <= item.name.size() &&
 item.name.substr(0, namePrefix.size()) == namePrefix`. -/
def matchesName (pfx name : LogString) : Bool :=
  decide (pfx.length ≤ name.length) && decide (name.take pfx.length = pfx)

/-- The find_if condition of removePeriodicTasksMatching: a job that is not
yet marked removed and whose name matches. -/
def markPred (pfx : LogString) (j : Job) : Bool :=
  !j.removed && matchesName pfx j.name

/-- `pItem->removed = true`. -/
def markJob (j : Job) : Job := { j with removed := true }

/-- What one whole scan-and-mark loop does to a single job, used to state
the net effect of removePeriodicTasksMatching. -/
def markFn (pfx : LogString) (j : Job) : Job :=
  if markPred pfx j then markJob j else j

/-- One iteration of the `while (1)` of removePeriodicTasksMatching
(lines 330-340): find_if for the first unmarked matching job; mark it
removed; `none` when find_if returned `end()` (the loop breaks). -/
def findMark (pfx : LogString) : List Job → Option (List Job)
  | [] => none
  | j :: rest =>
    if markPred pfx j then some (markJob j :: rest)
    else (findMark pfx rest).map (fun rest' => j :: rest')

/-- The repeated scan of removePeriodicTasksMatching.  Each mark turns one
job with markPred true into one with markPred false, so fueling the loop
with the count of unmarked matching jobs always suffices
(see removeLoop_eq_map). -/
def removeLoop (pfx : LogString) : Nat → List Job → List Job
  | 0, jobs => jobs
  | fuel + 1, jobs =>
    match findMark pfx jobs with
    | none => jobs
    | some jobs' => removeLoop pfx fuel jobs'

/-- ThreadUtility::removePeriodicTasksMatching (lines 328-342) as its
effect on the job store (the final notify_one does not touch the store). -/
def removePeriodicTasksMatching (pfx : LogString) (jobs : List Job) : List Job :=
  removeLoop pfx (jobs.countP (fun j => markPred pfx j)) jobs

/-- The scheduler-wide state of ThreadUtility::priv_data that the lifecycle
claims are about: the job store, maxDelay, the terminated flag and whether
the worker `std::thread` handle is joinable. -/
structure SchedState where
  jobs : List Job
  maxDelay : Nat
  terminated : Bool
  threadJoinable : Bool
deriving DecidableEq

/-- priv_data::stopThread (lines 94-100): setTerminated (terminated := true
under the interrupt mutex), notify_all (no store effect), then join the
thread if joinable; after a join the handle is no longer joinable. -/
def stopThread (s : SchedState) : SchedState :=
  if s.threadJoinable then
    { s with terminated := true, threadJoinable := false }
  else
    { s with terminated := true }

/-- The `while (!jobs.empty()) jobs.pop_back()` loop of
removeAllPeriodicTasks, fueled by the list length (pop_back shortens the
list by one, so length steps always reach the empty store). -/
def clearLoop : Nat → List Job → List Job
  | 0, jobs => jobs
  | fuel + 1, jobs => if jobs.isEmpty then jobs else clearLoop fuel jobs.dropLast

/-- ThreadUtility::removeAllPeriodicTasks (lines 298-306): pop every job,
then stopThread. -/
def removeAllPeriodicTasks (s : SchedState) : SchedState :=
  stopThread { s with jobs := clearLoop s.jobs.length s.jobs }

/-- ThreadUtility::addPeriodicTask (lines 266-280): raise maxDelay if the
new delay is larger, append a job with nextRun = currentTime + delay and a
zeroed error count, then either start a worker thread (clearing terminated
first) when none is joinable, or notify the running one (no store
effect). -/
def addPeriodicTask (s : SchedState) (name : LogString) (delay currentTime : Nat) :
    SchedState :=
  if !s.threadJoinable then
    { jobs := s.jobs ++ [⟨name, delay, currentTime + delay, 0, false⟩],
      maxDelay := if s.maxDelay < delay then delay else s.maxDelay,
      terminated := false,
      threadJoinable := true }
  else
    { s with
      jobs := s.jobs ++ [⟨name, delay, currentTime + delay, 0, false⟩],
      maxDelay := if s.maxDelay < delay then delay else s.maxDelay }

/-- Modelled from the spec: the quantity the specification calls the wake
deadline, "the minimum nextRunTime across all live jobs, bounded above by
now + maxPeriod" — the fold of min over the nextRun of every non-removed
job, seeded with the bound.  Stated from the spec's words for comparison
with the deadline the code computes (claim C2). -/
def specMinLiveDeadline (init : Nat) (jobs : List Job) : Nat :=
  jobs.foldl (fun d j => if j.removed then d else min d j.nextRun) init

/-- Oracle making every action invocation fail with a std::exception. -/
def osFail : Nat → Outcome := fun _ => Outcome.failStd

/-- Oracle making every action invocation return cleanly at time 5. -/
def osOk : Nat → Outcome := fun _ => Outcome.success 5

/-- Every slot of the outcome oracle is a clean return. -/
def allSuccess (os : Nat → Outcome) : Prop :=
  ∀ i, ∃ t, os i = Outcome.success t

/-- A concrete job used by witnesses and counterexamples: name "a",
period 5, next run at time 0, no failures yet, not removed. -/
def jobA : Job := ⟨['a'], 5, 0, 0, false⟩

/-- A folded deadline update never raises the deadline. -/
theorem ite_lt_le (x d : Nat) : (if x < d then x else d) ≤ d := by
  split <;> omega

/-- The fold the code performs on the deadline is the minimum. -/
theorem ite_lt_eq_min (x d : Nat) : (if x < d then x else d) = min d x := by
  rcases lt_or_ge x d with h | h
  · simp [h, min_eq_right h.le]
  · simp [not_lt.mpr h, min_eq_left h]

/-- The maxDelay update of addPeriodicTask is the maximum. -/
theorem ite_lt_eq_max (a b : Nat) : (if a < b then b else a) = max a b := by
  rcases lt_or_ge a b with h | h
  · simp [h, max_eq_right h.le]
  · simp [not_lt.mpr h, max_eq_left h]

/-- A removed job is skipped untouched by the execution step. -/
theorem stepJob_removed (cT : Nat) (o : Outcome) (j : Job) (d : Nat)
    (h : j.removed = true) : stepJob cT o j d = ⟨j, d, [], false⟩ := by
  simp [stepJob, h]

/-- A due live job whose action returns cleanly: nextRun is recomputed from
the finish time, the error count is reset, the new nextRun is folded into
the deadline. -/
theorem stepJob_due_success (cT t : Nat) (j : Job) (d : Nat)
    (h1 : j.removed = false) (h2 : j.nextRun ≤ cT) :
    stepJob cT (Outcome.success t) j d =
      ⟨{ j with nextRun := t + j.delay, errorCount := 0 },
        if t + j.delay < d then t + j.delay else d, [], true⟩ := by
  simp [stepJob, h1, h2]

/-- A due live job whose action throws a std::exception: one warn carrying
the job's name, the error count is incremented; nextRun and the deadline
are left untouched. -/
theorem stepJob_due_failStd (cT : Nat) (j : Job) (d : Nat)
    (h1 : j.removed = false) (h2 : j.nextRun ≤ cT) :
    stepJob cT Outcome.failStd j d =
      ⟨{ j with errorCount := j.errorCount + 1 }, d, [Warn.ex j.name], true⟩ := by
  simp [stepJob, h1, h2]

/-- A due live job whose action throws a non-standard object: one warn
carrying the job's name, the error count is incremented; nextRun and the
deadline are left untouched. -/
theorem stepJob_due_failOther (cT : Nat) (j : Job) (d : Nat)
    (h1 : j.removed = false) (h2 : j.nextRun ≤ cT) :
    stepJob cT Outcome.failOther j d =
      ⟨{ j with errorCount := j.errorCount + 1 }, d, [Warn.other j.name], true⟩ := by
  simp [stepJob, h1, h2]

/-- A live job that is not yet due only folds its nextRun into the
deadline. -/
theorem stepJob_notDue (cT : Nat) (o : Outcome) (j : Job) (d : Nat)
    (h1 : j.removed = false) (h2 : ¬ j.nextRun ≤ cT) :
    stepJob cT o j d = ⟨j, if j.nextRun < d then j.nextRun else d, [], false⟩ := by
  simp [stepJob, h1, h2]

/-- The execution step never raises the tentative deadline. -/
theorem stepJob_deadline_le (cT : Nat) (o : Outcome) (j : Job) (d : Nat) :
    (stepJob cT o j d).deadline ≤ d := by
  by_cases h1 : j.removed
  · simp [stepJob_removed cT o j d h1]
  · by_cases h2 : j.nextRun ≤ cT
    · cases o with
      | success t =>
        simp [stepJob_due_success cT t j d (by simp [h1]) h2, ite_lt_le]
      | failStd => simp [stepJob_due_failStd cT j d (by simp [h1]) h2]
      | failOther => simp [stepJob_due_failOther cT j d (by simp [h1]) h2]
    · simp [stepJob_notDue cT o j d (by simp [h1]) h2, ite_lt_le]

/-- Unfolding equation for the execution pass on a cons cell. -/
theorem runPass_cons (cT : Nat) (os : Nat → Outcome) (j : Job) (rest : List Job)
    (d : Nat) :
    runPass cT os (j :: rest) d =
      ((stepJob cT (os 0) j d).job ::
         (runPass cT (fun i => os (i + 1)) rest (stepJob cT (os 0) j d).deadline).1,
       (runPass cT (fun i => os (i + 1)) rest (stepJob cT (os 0) j d).deadline).2.1,
       (stepJob cT (os 0) j d).warns ++
         (runPass cT (fun i => os (i + 1)) rest (stepJob cT (os 0) j d).deadline).2.2) :=
  rfl

/-- The deadline computed by the execution pass never exceeds its seed. -/
theorem runPass_deadline_le (cT : Nat) (os : Nat → Outcome) (jobs : List Job)
    (d : Nat) : (runPass cT os jobs d).2.1 ≤ d := by
  induction jobs generalizing os d with
  | nil => simp [runPass]
  | cons j rest ih =>
    rw [runPass_cons]
    exact le_trans (ih _ _) (stepJob_deadline_le cT (os 0) j d)

/-- The execution pass visits every job: the store keeps its length. -/
theorem runPass_length (cT : Nat) (os : Nat → Outcome) (jobs : List Job)
    (d : Nat) : (runPass cT os jobs d).1.length = jobs.length := by
  induction jobs generalizing os d with
  | nil => simp [runPass]
  | cons j rest ih => rw [runPass_cons]; simp [ih]

/-- Unfolding equation for the spec-side deadline fold. -/
theorem specMinLiveDeadline_cons (d : Nat) (j : Job) (rest : List Job) :
    specMinLiveDeadline d (j :: rest) =
      specMinLiveDeadline (if j.removed then d else min d j.nextRun) rest := rfl

/-- When every executed action returns cleanly, the deadline the pass
computes is exactly the spec's fold: the minimum post-pass nextRun over
non-removed jobs, seeded with the ceiling. -/
theorem runPass_allSuccess_spec (cT : Nat) (os : Nat → Outcome) (jobs : List Job)
    (d : Nat) (h : allSuccess os) :
    (runPass cT os jobs d).2.1 = specMinLiveDeadline d (runPass cT os jobs d).1 := by
  induction jobs generalizing os d with
  | nil => simp [runPass, specMinLiveDeadline]
  | cons j rest ih =>
    have hsh : allSuccess (fun i => os (i + 1)) := fun i => h (i + 1)
    obtain ⟨t0, ht0⟩ := h 0
    rw [runPass_cons, ht0]
    by_cases h1 : j.removed
    · rw [stepJob_removed cT (Outcome.success t0) j d h1]
      rw [specMinLiveDeadline_cons]
      simp only [h1, if_pos]
      exact ih _ _ hsh
    · by_cases h2 : j.nextRun ≤ cT
      · rw [stepJob_due_success cT t0 j d (by simp [h1]) h2]
        rw [specMinLiveDeadline_cons]
        simp only [h1, if_neg, Bool.false_eq_true, not_false_eq_true, ite_lt_eq_min]
        exact ih _ _ hsh
      · rw [stepJob_notDue cT (Outcome.success t0) j d (by simp [h1]) h2]
        rw [specMinLiveDeadline_cons]
        simp only [h1, if_neg, Bool.false_eq_true, not_false_eq_true, ite_lt_eq_min]
        exact ih _ _ hsh

/-- When find_if fails, no element satisfies the predicate. -/
theorem eraseFirstP_none_mem (p : Job → Bool) (jobs : List Job)
    (h : eraseFirstP p jobs = none) : ∀ j ∈ jobs, p j = false := by
  induction jobs with
  | nil => simp
  | cons j rest ih =>
    by_cases hp : p j
    · simp [eraseFirstP, hp] at h
    · simp only [eraseFirstP, hp, if_neg, Bool.false_eq_true, not_false_eq_true,
        Option.map_eq_none'] at h
      intro j' hj'
      rcases List.mem_cons.mp hj' with rfl | hmem
      · simpa using hp
      · exact ih h j' hmem

/-- Erasing the found element shortens the store by exactly one. -/
theorem eraseFirstP_some_length (p : Job → Bool) (jobs jobs' : List Job)
    (h : eraseFirstP p jobs = some jobs') : jobs'.length + 1 = jobs.length := by
  induction jobs generalizing jobs' with
  | nil => simp [eraseFirstP] at h
  | cons j rest ih =>
    by_cases hp : p j
    · simp only [eraseFirstP, hp, if_pos, Option.some.injEq] at h
      simp [← h]
    · simp only [eraseFirstP, hp, if_neg, Bool.false_eq_true, not_false_eq_true,
        Option.map_eq_some'] at h
      obtain ⟨rest', hrest', rfl⟩ := h
      simp [← ih rest' hrest']

/-- Erasing an element the filter would drop anyway preserves the filter. -/
theorem eraseFirstP_some_filter (p : Job → Bool) (jobs jobs' : List Job)
    (h : eraseFirstP p jobs = some jobs') :
    jobs'.filter (fun j => !p j) = jobs.filter (fun j => !p j) := by
  induction jobs generalizing jobs' with
  | nil => simp [eraseFirstP] at h
  | cons j rest ih =>
    by_cases hp : p j
    · simp only [eraseFirstP, hp, if_pos, Option.some.injEq] at h
      simp [← h, List.filter_cons, hp]
    · simp only [eraseFirstP, hp, if_neg, Bool.false_eq_true, not_false_eq_true,
        Option.map_eq_some'] at h
      obtain ⟨rest', hrest', rfl⟩ := h
      simp [List.filter_cons, hp, ih rest' hrest']

/-- With enough fuel, the purge loop removes exactly the jobs satisfying
the purge condition: the repeated erase-first equals one filter. -/
theorem purgeLoop_eq_filter (rc : Nat) :
    ∀ fuel jobs, List.length jobs ≤ fuel →
      purgeLoop rc fuel jobs = jobs.filter (fun j => !purgePred rc j) := by
  intro fuel
  induction fuel with
  | zero =>
    intro jobs hlen
    have : jobs = [] := List.eq_nil_of_length_eq_zero (Nat.le_zero.mp hlen)
    simp [this, purgeLoop]
  | succ fuel ih =>
    intro jobs hlen
    rw [purgeLoop]
    cases h : eraseFirstP (purgePred rc) jobs with
    | none =>
      have hall := eraseFirstP_none_mem _ _ h
      exact (List.filter_eq_self.mpr (fun j hj => by simp [hall j hj])).symm
    | some jobs' =>
      have hl := eraseFirstP_some_length _ _ _ h
      show purgeLoop rc fuel jobs' = _
      rw [ih jobs' (by omega)]
      exact eraseFirstP_some_filter _ _ _ h

/-- The purge pass equals a filter keeping jobs that are neither removed
nor over the retry limit. -/
theorem purge_eq_filter (rc : Nat) (jobs : List Job) :
    purge rc jobs = jobs.filter (fun j => !purgePred rc j) :=
  purgeLoop_eq_filter rc jobs.length jobs le_rfl

/-- A freshly marked job no longer satisfies the scan condition. -/
theorem markPred_markJob (pfx : LogString) (j : Job) :
    markPred pfx (markJob j) = false := by
  simp [markPred, markJob]

/-- When the scan's find_if fails, no job is an unmarked match. -/
theorem findMark_none_mem (pfx : LogString) (jobs : List Job)
    (h : findMark pfx jobs = none) : ∀ j ∈ jobs, markPred pfx j = false := by
  induction jobs with
  | nil => simp
  | cons j rest ih =>
    by_cases hp : markPred pfx j
    · simp [findMark, hp] at h
    · simp only [findMark, hp, if_neg, Bool.false_eq_true, not_false_eq_true,
        Option.map_eq_none'] at h
      intro j' hj'
      rcases List.mem_cons.mp hj' with rfl | hmem
      · simpa using hp
      · exact ih h j' hmem

/-- Marking one job decrements the count of unmarked matches by one. -/
theorem findMark_some_countP (pfx : LogString) (jobs jobs' : List Job)
    (h : findMark pfx jobs = some jobs') :
    jobs'.countP (fun j => markPred pfx j) + 1 =
      jobs.countP (fun j => markPred pfx j) := by
  induction jobs generalizing jobs' with
  | nil => simp [findMark] at h
  | cons j rest ih =>
    by_cases hp : markPred pfx j
    · simp only [findMark, hp, if_pos, Option.some.injEq] at h
      simp [← h, List.countP_cons, markPred_markJob, hp]
    · simp only [findMark, hp, if_neg, Bool.false_eq_true, not_false_eq_true,
        Option.map_eq_some'] at h
      obtain ⟨rest', hrest', rfl⟩ := h
      have hih := ih rest' hrest'
      simp [List.countP_cons, hp]
      omega

/-- Marking one job does not change the net effect of marking them all. -/
theorem findMark_some_map (pfx : LogString) (jobs jobs' : List Job)
    (h : findMark pfx jobs = some jobs') :
    jobs'.map (markFn pfx) = jobs.map (markFn pfx) := by
  induction jobs generalizing jobs' with
  | nil => simp [findMark] at h
  | cons j rest ih =>
    by_cases hp : markPred pfx j
    · simp only [findMark, hp, if_pos, Option.some.injEq] at h
      simp [← h, markFn, markPred_markJob, hp]
    · simp only [findMark, hp, if_neg, Bool.false_eq_true, not_false_eq_true,
        Option.map_eq_some'] at h
      obtain ⟨rest', hrest', rfl⟩ := h
      simp [ih rest' hrest']

/-- When no job is an unmarked match, marking them all changes nothing. -/
theorem map_markFn_eq_self (pfx : LogString) (jobs : List Job)
    (h : ∀ j ∈ jobs, markPred pfx j = false) :
    jobs.map (markFn pfx) = jobs := by
  induction jobs with
  | nil => simp
  | cons j rest ih =>
    have hj := h j (List.mem_cons_self j rest)
    simp only [List.map_cons, markFn, hj, Bool.false_eq_true, if_neg,
      not_false_eq_true]
    exact congrArg _ (ih (fun j' hj' => h j' (List.mem_cons_of_mem j hj')))

/-- With enough fuel, the repeated scan-and-mark loop marks exactly every
unmarked matching job: it equals one map. -/
theorem removeLoop_eq_map (pfx : LogString) :
    ∀ fuel jobs, jobs.countP (fun j => markPred pfx j) ≤ fuel →
      removeLoop pfx fuel jobs = jobs.map (markFn pfx) := by
  intro fuel
  induction fuel with
  | zero =>
    intro jobs hc
    have hall : ∀ j ∈ jobs, ¬ markPred pfx j = true :=
      List.countP_eq_zero.mp (Nat.le_zero.mp hc)
    rw [removeLoop]
    exact (map_markFn_eq_self pfx jobs (fun j hj => by simpa using hall j hj)).symm
  | succ fuel ih =>
    intro jobs hc
    rw [removeLoop]
    cases h : findMark pfx jobs with
    | none =>
      exact (map_markFn_eq_self pfx jobs (findMark_none_mem pfx jobs h)).symm
    | some jobs' =>
      have hcount := findMark_some_countP pfx jobs jobs' h
      show removeLoop pfx fuel jobs' = _
      rw [ih jobs' (by omega)]
      exact findMark_some_map pfx jobs jobs' h

/-- removePeriodicTasksMatching equals one map of the per-job mark. -/
theorem removePeriodicTasksMatching_eq_map (pfx : LogString) (jobs : List Job) :
    removePeriodicTasksMatching pfx jobs = jobs.map (markFn pfx) :=
  removeLoop_eq_map pfx _ jobs le_rfl

/-- With enough fuel, the pop_back loop empties the store. -/
theorem clearLoop_eq_nil :
    ∀ fuel jobs, List.length jobs ≤ fuel → clearLoop fuel jobs = [] := by
  intro fuel
  induction fuel with
  | zero =>
    intro jobs hlen
    have : jobs = [] := List.eq_nil_of_length_eq_zero (Nat.le_zero.mp hlen)
    simp [this, clearLoop]
  | succ fuel ih =>
    intro jobs hlen
    rw [clearLoop]
    by_cases he : jobs.isEmpty
    · simp [he, List.isEmpty_iff.mp he]
    · have hne : jobs ≠ [] := by simpa [List.isEmpty_iff] using he
      simp only [he, Bool.false_eq_true, if_neg, not_false_eq_true]
      exact ih jobs.dropLast (by
        have := List.length_dropLast jobs
        have hpos : 0 < jobs.length := List.length_pos.mpr hne
        omega)

/-- Net effect of removeAllPeriodicTasks on the modelled state. -/
theorem removeAll_state (s : SchedState) :
    (removeAllPeriodicTasks s).jobs = [] ∧
      (removeAllPeriodicTasks s).terminated = true ∧
      (removeAllPeriodicTasks s).threadJoinable = false := by
  have hj : clearLoop s.jobs.length s.jobs = [] := clearLoop_eq_nil _ _ le_rfl
  unfold removeAllPeriodicTasks stopThread
  split <;> simp_all [hj]

/-- The due branch of the execution step is entered exactly when the job is
live and its nextRun has been reached. -/
theorem stepJob_ran (cT : Nat) (o : Outcome) (j : Job) (d : Nat) :
    (stepJob cT o j d).ran = (!j.removed && decide (j.nextRun ≤ cT)) := by
  by_cases h1 : j.removed
  · simp [stepJob_removed cT o j d h1, h1]
  · have h1' : j.removed = false := by simp [h1]
    by_cases h2 : j.nextRun ≤ cT
    · cases o with
      | success t => simp [stepJob_due_success cT t j d h1' h2, h1', h2]
      | failStd => simp [stepJob_due_failStd cT j d h1' h2, h1', h2]
      | failOther => simp [stepJob_due_failOther cT j d h1' h2, h1', h2]
    · simp [stepJob_notDue cT o j d h1' h2, h1', h2]

/-- Claim C1, counterexample: the update of nextRunTime and the deadline
fold do NOT happen in the failure case as they do in the success case.  On
the same store (one live job, nextRun 0, period 5) and the same pass
(currentTime 10, ceiling 30), the all-success oracle advances nextRun to
finishTime + period = 10 and folds the deadline to 10, while the
all-failure oracle leaves nextRun at 0 and the deadline at the ceiling 30:
after a failed attempt nextRunTime is not recomputed to now + period. -/
theorem c1_counterexample :
    (runPass 10 osFail [jobA] 30).1 = [⟨['a'], 5, 0, 1, false⟩] ∧
      (runPass 10 osFail [jobA] 30).2.1 = 30 ∧
      (runPass 10 osOk [jobA] 30).1 = [⟨['a'], 5, 10, 0, false⟩] ∧
      (runPass 10 osOk [jobA] 30).2.1 = 10 := by
  decide

/-- Claim C1, amended: after an execution attempt that raises, the job's
nextRunTime and the running minimum wake deadline are left unchanged and
only the failure counter advances (the source leaves the nextRun update
inside the try block); only after a clean return is nextRunTime recomputed
to the action's finish time + period and folded into the deadline. -/
theorem c1_failure_keeps_schedule :
    (∀ cT j dl, j.removed = false → j.nextRun ≤ cT →
      stepJob cT Outcome.failStd j dl =
        ⟨{ j with errorCount := j.errorCount + 1 }, dl, [Warn.ex j.name], true⟩) ∧
    (∀ cT j dl, j.removed = false → j.nextRun ≤ cT →
      stepJob cT Outcome.failOther j dl =
        ⟨{ j with errorCount := j.errorCount + 1 }, dl, [Warn.other j.name], true⟩) ∧
    (∀ cT t j dl, j.removed = false → j.nextRun ≤ cT →
      stepJob cT (Outcome.success t) j dl =
        ⟨{ j with nextRun := t + j.delay, errorCount := 0 },
          if t + j.delay < dl then t + j.delay else dl, [], true⟩) :=
  ⟨fun cT j dl h1 h2 => stepJob_due_failStd cT j dl h1 h2,
    fun cT j dl h1 h2 => stepJob_due_failOther cT j dl h1 h2,
    fun cT t j dl h1 h2 => stepJob_due_success cT t j dl h1 h2⟩

/-- Witness for C1 (amended) at a concrete due job and deadline. -/
theorem c1_witness :
    jobA.removed = false ∧ jobA.nextRun ≤ 10 ∧
      stepJob 10 Outcome.failStd jobA 30 =
        ⟨{ jobA with errorCount := jobA.errorCount + 1 }, 30, [Warn.ex jobA.name], true⟩ :=
  ⟨rfl, by decide, c1_failure_keeps_schedule.1 10 jobA 30 rfl (by decide)⟩

/-- Claim C2, counterexample: with one live job (nextRun 0, period 5) whose
action fails at currentTime 10 under ceiling 30, the wait deadline the code
computes is 30, while the minimum nextRunTime across the live jobs (the
failed job stays live with nextRun 0) bounded by the ceiling is 0: the
deadline is not that minimum, because a job whose action raised is not
folded in. -/
theorem c2_counterexample :
    (runPass 10 osFail [jobA] 30).2.1 = 30 ∧
      specMinLiveDeadline 30 (runPass 10 osFail [jobA] 30).1 = 0 ∧
      (30 : Nat) ≠ 0 := by
  decide

/-- Claim C2, amended: the timed-wait deadline never exceeds
currentTime + maxPeriod (it is seeded with that ceiling and only ever
lowered), maxPeriod is the maximum over ever-registered periods, and the
deadline equals the minimum nextRunTime over all live jobs bounded by the
ceiling whenever every executed action returns cleanly; a job whose action
raises is not folded into the deadline. -/
theorem c2_wake_deadline :
    (∀ cT maxD os jobs, (runPass cT os jobs (cT + maxD)).2.1 ≤ cT + maxD) ∧
    (∀ s n d t, (addPeriodicTask s n d t).maxDelay = max s.maxDelay d) ∧
    (∀ cT os jobs d, allSuccess os →
      (runPass cT os jobs d).2.1 = specMinLiveDeadline d (runPass cT os jobs d).1) := by
  refine ⟨fun cT maxD os jobs => runPass_deadline_le cT os jobs _, ?_,
    fun cT os jobs d h => runPass_allSuccess_spec cT os jobs d h⟩
  intro s n d t
  unfold addPeriodicTask
  split <;> simp [ite_lt_eq_max]

/-- Witness for C2 (amended) with the all-success oracle on a concrete
store. -/
theorem c2_witness :
    allSuccess osOk ∧
      (runPass 10 osOk [jobA] 30).2.1 =
        specMinLiveDeadline 30 (runPass 10 osOk [jobA] 30).1 :=
  ⟨fun _ => ⟨5, rfl⟩, c2_wake_deadline.2.2 10 osOk [jobA] 30 (fun _ => ⟨5, rfl⟩)⟩

/-- Claim C3: the purge pass of the scheduler loop physically erases
exactly the jobs whose removed flag is set or whose failure counter exceeds
the retry limit (default 2); a job whose action fails on 3 consecutive
passes survives the first two purges with counters 1 and 2 and is erased by
the third (so it is never invoked again: it is no longer in the store a
pass iterates over); and a successful invocation resets the counter to 0. -/
theorem c3_bounded_retry :
    (∀ rc jobs, purge rc jobs =
      jobs.filter (fun j => !(j.removed || decide (rc < j.errorCount)))) ∧
    ((loopIter 2 20 10 osFail (loopIter 2 20 10 osFail [jobA]).1).1 =
      [⟨['a'], 5, 0, 2, false⟩]) ∧
    ((loopIter 2 20 10 osFail
        (loopIter 2 20 10 osFail (loopIter 2 20 10 osFail [jobA]).1).1).1 = []) ∧
    (∀ cT t j dl, j.removed = false → j.nextRun ≤ cT →
      (stepJob cT (Outcome.success t) j dl).job.errorCount = 0) := by
  refine ⟨fun rc jobs => ?_, by decide, by decide, fun cT t j dl h1 h2 => ?_⟩
  · simpa [purgePred] using purge_eq_filter rc jobs
  · rw [stepJob_due_success cT t j dl h1 h2]

/-- Witness for C3 at a concrete due job executed successfully. -/
theorem c3_witness :
    jobA.removed = false ∧ jobA.nextRun ≤ 10 ∧
      (stepJob 10 (Outcome.success 5) jobA 30).job.errorCount = 0 :=
  ⟨rfl, by decide, c3_bounded_retry.2.2.2 10 5 jobA 30 rfl (by decide)⟩

/-- Claim C4: a fault raised by a job's action is absorbed at the loop
boundary: the pass is a total function that still visits every job of the
store (the store keeps its length, so a fault never aborts the loop body),
and a failed execution emits exactly one diagnostic report carrying the
job's name while incrementing that job's failure counter by one — for both
the std::exception handler and the catch-all handler. -/
theorem c4_fault_isolation :
    (∀ cT os jobs d, (runPass cT os jobs d).1.length = jobs.length) ∧
    (∀ cT j dl, j.removed = false → j.nextRun ≤ cT →
      (stepJob cT Outcome.failStd j dl).warns = [Warn.ex j.name] ∧
        (stepJob cT Outcome.failStd j dl).job.errorCount = j.errorCount + 1) ∧
    (∀ cT j dl, j.removed = false → j.nextRun ≤ cT →
      (stepJob cT Outcome.failOther j dl).warns = [Warn.other j.name] ∧
        (stepJob cT Outcome.failOther j dl).job.errorCount = j.errorCount + 1) := by
  refine ⟨fun cT os jobs d => runPass_length cT os jobs d,
    fun cT j dl h1 h2 => ?_, fun cT j dl h1 h2 => ?_⟩
  · rw [stepJob_due_failStd cT j dl h1 h2]; exact ⟨rfl, rfl⟩
  · rw [stepJob_due_failOther cT j dl h1 h2]; exact ⟨rfl, rfl⟩

/-- Witness for C4 at a concrete due job whose action throws. -/
theorem c4_witness :
    jobA.removed = false ∧ jobA.nextRun ≤ 10 ∧
      ((stepJob 10 Outcome.failStd jobA 30).warns = [Warn.ex jobA.name] ∧
        (stepJob 10 Outcome.failStd jobA 30).job.errorCount = jobA.errorCount + 1) :=
  ⟨rfl, by decide, c4_fault_isolation.2.1 10 jobA 30 rfl (by decide)⟩

/-- Claim C5: for every store state (hence for every state reachable by
add/remove sequences) and every name, hasPeriodicTask returns true exactly
when the store holds a job that is not marked removed and whose name equals
the argument. -/
theorem c5_hasPeriodicTask_iff (jobs : List Job) (name : LogString) :
    hasPeriodicTask jobs name = true ↔
      ∃ j ∈ jobs, j.removed = false ∧ j.name = name := by
  simp only [hasPeriodicTask, List.any_eq_true, Bool.and_eq_true, Bool.not_eq_true',
    decide_eq_true_eq]
  constructor
  · rintro ⟨j, hj, hrem, hname⟩
    exact ⟨j, hj, hrem, hname.symm⟩
  · rintro ⟨j, hj, hrem, hname⟩
    exact ⟨j, hj, hrem, hname.symm⟩

/-- Claim C6: removePeriodicTasksMatching is, in net effect, one map over
the store that sets the removed flag of every not-yet-removed job whose
name extends the argument (the repeated rescans add nothing more), and
every other job — in particular every job whose name does not start with
the argument — is returned entirely unchanged in all fields; a name equal
to the argument matches. -/
theorem c6_removeMatching_frame :
    (∀ pfx jobs, removePeriodicTasksMatching pfx jobs =
      jobs.map (fun j => if !j.removed && matchesName pfx j.name
        then { j with removed := true } else j)) ∧
    (∀ pfx : LogString, matchesName pfx pfx = true) := by
  constructor
  · intro pfx jobs
    have hfn : markFn pfx = fun j =>
        if !j.removed && matchesName pfx j.name then { j with removed := true } else j := by
      funext j
      simp [markFn, markPred, markJob]
    rw [removePeriodicTasksMatching_eq_map pfx jobs, hfn]
  · intro pfx
    simp [matchesName, List.take_length]

/-- Claim C7: removeAllPeriodicTasks empties the store and performs the
synchronous stop before returning: afterwards the store is empty,
hasPeriodicTask is false for every name, the terminated flag is set and the
worker thread handle has been joined (the join returns only once the worker
has exited). -/
theorem c7_removeAll_sync (s : SchedState) :
    (removeAllPeriodicTasks s).jobs = [] ∧
      (∀ name, hasPeriodicTask (removeAllPeriodicTasks s).jobs name = false) ∧
      (removeAllPeriodicTasks s).terminated = true ∧
      (removeAllPeriodicTasks s).threadJoinable = false := by
  obtain ⟨h1, h2, h3⟩ := removeAll_state s
  exact ⟨h1, fun name => by simp [h1, hasPeriodicTask], h2, h3⟩

/-- Claim C8: addPeriodicTask appends a job whose nextRunTime is the
registration time plus the period; the scheduler's execution branch is
entered exactly for live jobs with nextRun at or before currentTime; hence
a job registered at time t with period d can only be executed in a pass
whose currentTime is at least t + d. -/
theorem c8_first_invocation :
    (∀ s n d t, (addPeriodicTask s n d t).jobs =
      s.jobs ++ [⟨n, d, t + d, 0, false⟩]) ∧
    (∀ cT o j dl, (stepJob cT o j dl).ran = (!j.removed && decide (j.nextRun ≤ cT))) ∧
    (∀ n d t cT o dl,
      (stepJob cT o (⟨n, d, t + d, 0, false⟩ : Job) dl).ran = true → t + d ≤ cT) := by
  refine ⟨?_, fun cT o j dl => stepJob_ran cT o j dl, ?_⟩
  · intro s n d t
    unfold addPeriodicTask
    split <;> rfl
  · intro n d t cT o dl h
    have hr := stepJob_ran cT o (⟨n, d, t + d, 0, false⟩ : Job) dl
    rw [h] at hr
    simpa using hr.symm

/-- Witness for C8: a job registered at time 0 with period 5 runs in the
pass at currentTime 5 = registration time + period. -/
theorem c8_witness :
    (stepJob 5 (Outcome.success 7) (⟨['a'], 5, 0 + 5, 0, false⟩ : Job) 100).ran = true ∧
      0 + 5 ≤ 5 :=
  ⟨by decide, c8_first_invocation.2.2 ['a'] 5 0 5 (Outcome.success 7) 100 (by decide)⟩

/-- Claim C10: when no worker thread handle is joinable, addPeriodicTask
clears the terminated flag before creating the new worker; removeAll leaves
the state with terminated set and the handle joined, and a subsequent
addPeriodicTask on that state starts a worker that observes terminated =
false, so the scheduler is restartable after a stop. -/
theorem c10_restartable :
    (∀ s n d t, s.threadJoinable = false →
      (addPeriodicTask s n d t).terminated = false ∧
        (addPeriodicTask s n d t).threadJoinable = true) ∧
    (∀ s, (removeAllPeriodicTasks s).terminated = true ∧
      (removeAllPeriodicTasks s).threadJoinable = false) ∧
    (∀ s n d t, (addPeriodicTask (removeAllPeriodicTasks s) n d t).terminated = false) := by
  have hadd : ∀ (s : SchedState) (n : LogString) (d t : Nat), s.threadJoinable = false →
      (addPeriodicTask s n d t).terminated = false ∧
        (addPeriodicTask s n d t).threadJoinable = true := by
    intro s n d t h
    unfold addPeriodicTask
    simp [h]
  refine ⟨hadd, fun s => ⟨(removeAll_state s).2.1, (removeAll_state s).2.2⟩, ?_⟩
  intro s n d t
  exact (hadd _ n d t (removeAll_state s).2.2).1

/-- Witness for C10 at a concrete stopped state (terminated set, handle
not joinable). -/
theorem c10_witness :
    (⟨[], 0, true, false⟩ : SchedState).threadJoinable = false ∧
      ((addPeriodicTask ⟨[], 0, true, false⟩ ['a'] 5 0).terminated = false ∧
        (addPeriodicTask ⟨[], 0, true, false⟩ ['a'] 5 0).threadJoinable = true) :=
  ⟨rfl, c10_restartable.1 ⟨[], 0, true, false⟩ ['a'] 5 0 rfl⟩

end ThreadUtility
